import Mathlib

/-!
Verification of the Poisson-football Bayesian engine (`src/football1.py`).

The program manipulates discrete probability mass functions (thinkbayes2
`Pmf` objects: Python dicts from value to float mass together with an
insertion order).  We embed a `Pmf` as a `FinPmf`: the ordered key list of
the dict plus a real-valued mass function.  Floating point arithmetic is
modelled by exact real arithmetic.  Python exceptions (`ValueError` raised
by `Normalize` on zero total, `AttributeError`, `NameError`) are modelled
by `Option`/`Except` results.

The probability primitives of the external `thinkbayes2` library
(`EvalExponentialPdf`, `Suite.Update`, `MakePoissonPmf`, `MakeMixture`,
`Pmf.__add__` / `__mul__` on constants and pmfs, `Normalize`) are not part
of this repository's sources; they are modelled from the specification's
own description of them (sections 4.1 - 4.3 of the spec), which matches
their documented behaviour.
-/

noncomputable section

open Classical

/-- A thinkbayes2 `Pmf` / Python dict: the ordered list of keys present in
the dict, and the mass associated to each value (0 for absent keys in all
dicts built from empty by the operations below). -/
structure FinPmf (α : Type) where
  keys : List α
  mass : α → ℝ

namespace FinPmf

/-- The empty `Pmf()`. -/
def empty : FinPmf ℤ := ⟨[], fun _ => 0⟩

/-- Modelled from the spec: `set(value, mass)` assigns/overwrites mass for a
value, no normalization side effect (dict assignment: a fresh key is
appended to the iteration order, an existing key keeps its position). -/
def set [DecidableEq α] (d : FinPmf α) (k : α) (v : ℝ) : FinPmf α :=
  ⟨if k ∈ d.keys then d.keys else d.keys ++ [k],
   fun a => if a = k then v else d.mass a⟩

/-- Modelled from the spec: `incrementMass(value, delta)` adds delta to the
existing mass (0 if absent). -/
def incr [DecidableEq α] (d : FinPmf α) (k : α) (v : ℝ) : FinPmf α :=
  d.set k (d.mass k + v)

/-- `Items()`: the (value, mass) pairs in dict iteration order. -/
def items (d : FinPmf α) : List (α × ℝ) :=
  d.keys.map fun k => (k, d.mass k)

/-- `Total()`: the sum of the masses of the keys present in the dict. -/
def total (d : FinPmf α) : ℝ :=
  (d.keys.map d.mass).sum

/-- Modelled from the spec: `normalize()` divides every mass by the total
and fails when the total mass is 0 (thinkbayes2 raises `ValueError`,
modelled as `none`): a degenerate posterior is surfaced as an error, not
silently ignored. -/
def normalize (d : FinPmf α) : Option (FinPmf α) :=
  if d.total = 0 then none else some ⟨d.keys, fun a => d.mass a / d.total⟩

/-- Modelled from the spec: `shift(amount)` / thinkbayes2 `AddConstant` -
every key offset by the constant, masses carried along. -/
def addConstant (d : FinPmf ℤ) (c : ℤ) : FinPmf ℤ :=
  ⟨d.keys.map (· + c), fun k => d.mass (k - c)⟩

/-- Modelled from the spec: thinkbayes2 `Scale` via `pmf * c` - keys are
multiplied by the constant (the source only scales by the point values
3 and 7, both nonzero). -/
def scaleKeys (d : FinPmf ℤ) (c : ℤ) : FinPmf ℤ :=
  ⟨d.keys.map (· * c), fun k => if c ∣ k then d.mass (k / c) else 0⟩

/-- Folding `incr` over a list of (key, delta) pairs: the shape of every
accumulation loop (`mix[x] += p1 * p2`, `pmf.Incr(v1 + v2, p1 * p2)`). -/
def incrAll (d : FinPmf ℤ) (l : List (ℤ × ℝ)) : FinPmf ℤ :=
  l.foldl (fun a kv => a.incr kv.1 kv.2) d

/-- Modelled from the spec: thinkbayes2 `AddPmf` (`pmf1 + pmf2`), the
convolution: for every (v1, p1) of the first and (v2, p2) of the second,
accumulate p1 * p2 at key v1 + v2. -/
def addPmf (d1 d2 : FinPmf ℤ) : FinPmf ℤ :=
  incrAll empty
    ((d1.items.map fun x => d2.items.map fun y => (x.1 + y.1, x.2 * y.2)).flatten)

end FinPmf

/-- Modelled from the spec: thinkbayes2 `EvalExponentialPdf(x, lam)`, the
exponential inter-arrival density `lam * exp(-lam * x)`. -/
def evalExponentialPdf (x lam : ℝ) : ℝ :=
  lam * Real.exp (-lam * x)

/-- `ScoreType.Likelihood` (src/football1.py lines 61-70): the hypothesis
`hypo` is a scoring rate in goals per game, converted to the per-minute
rate `lam = hypo / 60`; the likelihood of a gap of `data` minutes is the
exponential density at `data`. -/
def scoreLikelihood (data hypo : ℝ) : ℝ :=
  evalExponentialPdf data (hypo / 60)

/-- The unnormalized posterior produced inside thinkbayes2 `Suite.Update`:
each hypothesis' mass multiplied by its likelihood of the data. -/
def multSuite (x : ℝ) (d : FinPmf ℝ) : FinPmf ℝ :=
  ⟨d.keys, fun h => d.mass h * scoreLikelihood x h⟩

/-- Modelled from the spec: thinkbayes2 `Suite.Update(data)` - multiply
each hypothesis' mass by `Likelihood(data, hypo)`, then `Normalize`
(which errors on zero total). -/
def scoreUpdate (x : ℝ) (d : FinPmf ℝ) : Option (FinPmf ℝ) :=
  (multSuite x d).normalize

/-- Modelled from the spec: thinkbayes2 `EvalPoissonPmf(k, lam)`, the
Poisson mass `lam ^ k * exp(-lam) / k!`. -/
def poissonMass (lt : ℝ) (k : ℕ) : ℝ :=
  lt ^ k * Real.exp (-lt) / (Nat.factorial k)

/-- Total unnormalized mass of the Poisson pmf truncated at 20 (the bound
used by `ScoreType.PredRemaining`). -/
def poissonTotal (lt : ℝ) : ℝ :=
  ((List.range 21).map (poissonMass lt)).sum

/-- The integer keys 0..20 of a truncated Poisson pmf, in loop order. -/
def countKeys : List ℤ :=
  (List.range 21).map (Nat.cast : ℕ → ℤ)

/-- The dict built by the loop of thinkbayes2 `MakePoissonPmf(lt, 20)`
before normalization: keys 0..20 in order, Poisson masses. -/
def poissonRaw (lt : ℝ) : FinPmf ℤ :=
  ⟨countKeys, fun k => if 0 ≤ k ∧ k ≤ 20 then poissonMass lt k.toNat else 0⟩

/-- Modelled from the spec: thinkbayes2 `MakePoissonPmf(lt, 20)` - Poisson
masses at 0..20, then `Normalize`. -/
def makePoissonPmf (lt : ℝ) : Option (FinPmf ℤ) :=
  (poissonRaw lt).normalize

/-- Normalized truncated Poisson mass at an integer count. -/
def poissonNormMass (lt : ℝ) (k : ℤ) : ℝ :=
  (poissonRaw lt).mass k / poissonTotal lt

/-- The meta-pmf of `ScoreType.PredRemaining` (src lines 78-84): one
(Poisson pmf, posterior weight) entry per hypothesis, in suite iteration
order.  thinkbayes2 `Pmf` objects hash by identity, so each freshly built
inner pmf is a distinct dict key; per the spec's design note the mixture
input is an explicit ordered pairing of (inner distribution, weight).
Fails (`None`) if some inner normalization fails. -/
def buildMeta (rem : ℝ) : List (ℝ × ℝ) → Option (List (FinPmf ℤ × ℝ))
  | [] => some []
  | hp :: rest =>
    match makePoissonPmf (hp.1 * rem / 60), buildMeta rem rest with
    | some pmf, some l => some ((pmf, hp.2) :: l)
    | _, _ => none

/-- Modelled from the spec: thinkbayes2 `MakeMixture` - for every
(inner pmf, weight) pair, for every (k, mass) in the inner pmf,
accumulate weight * mass at key k. -/
def makeMixture (meta : List (FinPmf ℤ × ℝ)) : FinPmf ℤ :=
  FinPmf.incrAll FinPmf.empty
    ((meta.map fun pw => pw.1.items.map fun km => (km.1, pw.2 * km.2)).flatten)

/-- `ScoreType.PredRemaining(rem_time, score)` (src lines 72-88): for each
(hypothesis lam, prob), build the Poisson pmf of the expected remaining
count `lam * rem_time / 60` truncated at 20, weight it by prob, mix, and
shift by the already seen score. -/
def scorePredRemaining (rem : ℝ) (score : ℤ) (d : FinPmf ℝ) : Option (FinPmf ℤ) :=
  (buildMeta rem d.items).map fun meta => (makeMixture meta).addConstant score

/-- `Football` (src lines 15-22): hypotheses about an offense, one
rate-hypothesis suite per scoring type. -/
structure Football where
  TD : FinPmf ℝ
  FG : FinPmf ℝ

/-- Python errors surfaced by the program. -/
inductive PyError where
  | attrError (attr : String)
  | nameError (n : String)
  | valueError
deriving DecidableEq

/-- The instance attributes bound by `Football.__init__` (src lines
20-22): only `TD` and `FG`. -/
def footballInitAttrs : List String := ["TD", "FG"]

/-- `Football.Update` (src lines 24-30): its first statement evaluates
`self.score`, but `Football.__init__` binds only `TD` and `FG`, so the
attribute lookup raises `AttributeError` before any suite is touched.
Were a `score` attribute present, the method would then update `TD` with
`data[0]` and `FG` with `data[1]`. -/
def footballUpdate (f : Football) (data : ℝ × ℝ) : Except PyError Football :=
  if "score" ∈ footballInitAttrs then
    match scoreUpdate data.1 f.TD, scoreUpdate data.2 f.FG with
    | some td, some fg => .ok ⟨td, fg⟩
    | _, _ => .error .valueError
  else .error (.attrError "score")

/-- `Football.UpdateFG` (src lines 32-36): update only the FG suite. -/
def footballUpdateFG (f : Football) (dt : ℝ) : Option Football :=
  (scoreUpdate dt f.FG).map fun fg => ⟨f.TD, fg⟩

/-- `Football.UpdateTD` (src lines 38-42): update only the TD suite. -/
def footballUpdateTD (f : Football) (dt : ℝ) : Option Football :=
  (scoreUpdate dt f.TD).map fun td => ⟨td, f.FG⟩

/-- `Football.PredRemaining(rem_time, points_scored)` (src lines 44-54):
predictive count pmfs of both suites (each with score 0), FG keys scaled
by 3, TD keys scaled by 7, convolved, then shifted by the points already
scored. -/
def footballPredRemaining (f : Football) (rem : ℝ) (points : ℤ) : Option (FinPmf ℤ) :=
  match scorePredRemaining rem 0 f.FG, scorePredRemaining rem 0 f.TD with
  | some fgp, some tdp =>
      some (((fgp.scaleKeys 3).addPmf (tdp.scaleKeys 7)).addConstant points)
  | _, _ => none

/-- The module-level names bound in football1.py: the imports (src lines
10-13) and the module definitions (lines 15, 56, 90, 148). -/
def moduleNames : List String :=
  ["numpy", "thinkbayes2", "thinkplot", "scrape_team",
   "Football", "ScoreType", "constructPriors", "main"]

/-- The local names bound in `main` before the first print (src lines
153-156). -/
def mainLocalNames : List String :=
  ["eagles", "giants", "GoalTotalGiants", "GoalTotalEagles"]

/-- Python name resolution inside `main`: a name resolves if it is a local
of `main` or a module-level global. -/
def resolvesName (n : String) : Bool :=
  mainLocalNames.contains n || moduleNames.contains n

/-- The variable names referenced by the win-probability print statements
of `main` (src lines 157-158), in evaluation order. -/
def mainPrintRefs : List String :=
  ["GoalTotalEagles", "GoalTotal_giants", "GoalTotalGiants", "GoalTotal_eagles"]

/-- Outcome of `main`'s print sequence under Python name resolution: the
first reference that resolves neither locally nor at module level raises
`NameError` (propagating as a nonzero exit); only if every name resolves
do the prints complete. -/
def pyMainOutcome : Except PyError Unit :=
  match (mainPrintRefs.filter fun n => !(resolvesName n)).head? with
  | some n => .error (.nameError n)
  | none => .ok ()

/-- Concrete one-hypothesis suite (rate 60 points per game): used to
evaluate the engine at concrete inputs. -/
def suite60 : FinPmf ℝ :=
  ⟨[60], fun h => if h = 60 then 1 else 0⟩

/-- The two-point uniform prior over hypotheses {5, 10} points per game
(a thinkbayes2 `Suite` initialized from those values and normalized). -/
def suite2 : FinPmf ℝ :=
  ⟨[5, 10], fun h => if h = 5 ∨ h = 10 then (1 : ℝ) / 2 else 0⟩

/-- A suite carrying a (malformed) negative rate hypothesis. -/
def negSuite : FinPmf ℝ :=
  ⟨[-60], fun h => if h = -60 then 1 else 0⟩

/-- A concrete team model used to evaluate the team-level operations. -/
def demoFootball : Football :=
  ⟨suite60, suite60⟩

/-! ### Infrastructure lemmas -/

theorem sum_map_div (l : List ℝ) (g : ℝ → ℝ) (r : ℝ) :
    (l.map fun a => g a / r).sum = (l.map g).sum / r := by
  simp only [div_eq_mul_inv]
  rw [List.sum_map_mul_right]

theorem sum_map_ite_eq (l : List ℤ) (u : ℤ) (hnd : l.Nodup) (g : ℤ → ℝ) :
    (l.map fun k => if k = u then g k else 0).sum = if u ∈ l then g u else 0 := by
  induction l with
  | nil => simp
  | cons a t ih =>
    simp only [List.nodup_cons] at hnd
    by_cases h : a = u
    · subst h
      simp [hnd.1, ih hnd.2]
    · simp only [List.map_cons, List.sum_cons, if_neg h, ih hnd.2, List.mem_cons]
      have h' : ¬ u = a := fun hh => h hh.symm
      simp [h']

namespace FinPmf

theorem incr_mass (d : FinPmf ℤ) (k k' : ℤ) (v : ℝ) :
    (d.incr k v).mass k' = if k' = k then d.mass k + v else d.mass k' := rfl

theorem incr_keys (d : FinPmf ℤ) (k : ℤ) (v : ℝ) :
    (d.incr k v).keys = if k ∈ d.keys then d.keys else d.keys ++ [k] := rfl

theorem incr_keys_mem (d : FinPmf ℤ) (k k' : ℤ) (v : ℝ) :
    k' ∈ (d.incr k v).keys ↔ k' ∈ d.keys ∨ k' = k := by
  rw [incr_keys]
  by_cases h : k ∈ d.keys
  · simp only [if_pos h]
    constructor
    · exact fun hh => Or.inl hh
    · rintro (hh | rfl)
      · exact hh
      · exact h
  · simp [if_neg h]

theorem incrAll_nil (d : FinPmf ℤ) : incrAll d [] = d := rfl

theorem incrAll_cons (d : FinPmf ℤ) (p : ℤ × ℝ) (l : List (ℤ × ℝ)) :
    incrAll d (p :: l) = incrAll (d.incr p.1 p.2) l := rfl

theorem incrAll_append (d : FinPmf ℤ) (l1 l2 : List (ℤ × ℝ)) :
    incrAll d (l1 ++ l2) = incrAll (incrAll d l1) l2 := by
  simp [incrAll, List.foldl_append]

theorem incrAll_mass (l : List (ℤ × ℝ)) (d : FinPmf ℤ) (k : ℤ) :
    (incrAll d l).mass k = d.mass k + (l.map fun p => if p.1 = k then p.2 else 0).sum := by
  induction l generalizing d with
  | nil => simp [incrAll_nil]
  | cons a t ih =>
    rw [incrAll_cons, ih, incr_mass]
    by_cases h : a.1 = k
    · subst h
      simp only [List.map_cons, List.sum_cons, eq_self_iff_true, if_true]
      ring
    · have h' : ¬ k = a.1 := fun hh => h hh.symm
      simp only [List.map_cons, List.sum_cons, if_neg h, if_neg h']
      ring

theorem incrAll_keys_mem (l : List (ℤ × ℝ)) (d : FinPmf ℤ) (k : ℤ) :
    k ∈ (incrAll d l).keys ↔ k ∈ d.keys ∨ k ∈ l.map Prod.fst := by
  induction l generalizing d with
  | nil => simp [incrAll_nil]
  | cons a t ih =>
    rw [incrAll_cons, ih]
    simp only [incr_keys_mem, List.map_cons, List.mem_cons]
    tauto

theorem incrAll_keys_of_subset (l : List (ℤ × ℝ)) (d : FinPmf ℤ)
    (h : ∀ p ∈ l, p.1 ∈ d.keys) : (incrAll d l).keys = d.keys := by
  induction l generalizing d with
  | nil => rfl
  | cons a t ih =>
    rw [incrAll_cons]
    have ha : a.1 ∈ d.keys := h a (List.mem_cons_self a t)
    have hk : (d.incr a.1 a.2).keys = d.keys := by rw [incr_keys, if_pos ha]
    rw [ih _ fun p hp => hk ▸ h p (List.mem_cons_of_mem a hp), hk]

theorem incrAll_keys_fresh (l : List (ℤ × ℝ)) (d : FinPmf ℤ)
    (hnd : (l.map Prod.fst).Nodup) (h : ∀ p ∈ l, p.1 ∉ d.keys) :
    (incrAll d l).keys = d.keys ++ l.map Prod.fst := by
  induction l generalizing d with
  | nil => simp [incrAll_nil]
  | cons a t ih =>
    rw [incrAll_cons]
    simp only [List.map_cons, List.nodup_cons] at hnd
    have ha : a.1 ∉ d.keys := h a (List.mem_cons_self a t)
    have hk : (d.incr a.1 a.2).keys = d.keys ++ [a.1] := by rw [incr_keys, if_neg ha]
    have ht : ∀ p ∈ t, p.1 ∉ (d.incr a.1 a.2).keys := by
      intro p hp
      rw [hk]
      simp only [List.mem_append, List.mem_singleton]
      rintro (hc | hc)
      · exact h p (List.mem_cons_of_mem a hp) hc
      · exact hnd.1 (hc ▸ List.mem_map_of_mem Prod.fst hp)
    rw [ih _ hnd.2 ht, hk, List.append_assoc, List.singleton_append, List.map_cons]

theorem items_map_fst {α : Type} (d : FinPmf α) : d.items.map Prod.fst = d.keys := by
  rw [items, List.map_map]
  have : (Prod.fst ∘ fun k : α => (k, d.mass k)) = id := rfl
  rw [this, List.map_id]

theorem mem_items {α : Type} {d : FinPmf α} {p : α × ℝ} (hp : p ∈ d.items) :
    p.1 ∈ d.keys ∧ p.2 = d.mass p.1 := by
  simp only [items, List.mem_map] at hp
  obtain ⟨k, hk, rfl⟩ := hp
  exact ⟨hk, rfl⟩

end FinPmf

theorem multSuite_total (x : ℝ) (d : FinPmf ℝ) :
    (multSuite x d).total = (d.keys.map fun h => d.mass h * scoreLikelihood x h).sum := rfl

theorem scoreUpdate_eq_some (x : ℝ) (d : FinPmf ℝ) (hT : (multSuite x d).total ≠ 0) :
    scoreUpdate x d =
      some ⟨d.keys, fun h => d.mass h * scoreLikelihood x h / (multSuite x d).total⟩ := by
  rw [scoreUpdate, FinPmf.normalize, if_neg hT]
  rfl

theorem scoreUpdate_eq_none (x : ℝ) (d : FinPmf ℝ) (hT : (multSuite x d).total = 0) :
    scoreUpdate x d = none := by
  rw [scoreUpdate, FinPmf.normalize, if_pos hT]

theorem mem_countKeys (v : ℤ) : v ∈ countKeys ↔ 0 ≤ v ∧ v ≤ 20 := by
  rw [countKeys, List.mem_map]
  constructor
  · rintro ⟨n, hn, rfl⟩
    rw [List.mem_range] at hn
    omega
  · rintro ⟨h0, h1⟩
    refine ⟨v.toNat, ?_, ?_⟩
    · rw [List.mem_range]
      omega
    · omega

theorem countKeys_nodup : countKeys.Nodup :=
  (List.nodup_range 21).map fun a b hab => by exact_mod_cast hab

theorem poissonRaw_keys (lt : ℝ) : (poissonRaw lt).keys = countKeys := rfl

theorem poissonRaw_total (lt : ℝ) : (poissonRaw lt).total = poissonTotal lt := by
  have hmap : (poissonRaw lt).keys.map (poissonRaw lt).mass
      = (List.range 21).map (poissonMass lt) := by
    rw [poissonRaw_keys, countKeys, List.map_map]
    apply List.map_congr_left
    intro k hk
    rw [List.mem_range] at hk
    have h0 : (0 : ℤ) ≤ (k : ℤ) := by omega
    have h1 : ((k : ℤ)) ≤ 20 := by omega
    show (poissonRaw lt).mass ((k : ℤ)) = poissonMass lt k
    rw [poissonRaw]
    simp only
    rw [if_pos (And.intro h0 h1)]
    rfl
  rw [FinPmf.total, hmap, poissonTotal]

theorem poissonNormMass_zero (lt : ℝ) (v : ℤ) (hv : v ∉ countKeys) :
    poissonNormMass lt v = 0 := by
  rw [poissonNormMass, poissonRaw]
  simp only
  rw [if_neg (fun hc => hv ((mem_countKeys v).mpr hc)), zero_div]

theorem makePoissonPmf_eq_some (lt : ℝ) (hT : poissonTotal lt ≠ 0) :
    makePoissonPmf lt = some ⟨countKeys, fun k => poissonNormMass lt k⟩ := by
  rw [makePoissonPmf, FinPmf.normalize, poissonRaw_total, if_neg hT]
  rfl

theorem poissonTotal_pos (lt : ℝ) (h : 0 ≤ lt) : 0 < poissonTotal lt := by
  rw [poissonTotal, List.range_succ_eq_map]
  simp only [List.map_cons, List.sum_cons, List.map_map]
  have hpos : 0 < poissonMass lt 0 := by
    rw [poissonMass]
    positivity
  have hnn : 0 ≤ ((List.range 20).map (poissonMass lt ∘ Nat.succ)).sum := by
    apply List.sum_nonneg
    intro a ha
    simp only [List.mem_map, Function.comp_apply] at ha
    obtain ⟨k, _, rfl⟩ := ha
    rw [poissonMass]
    have h1 : (0 : ℝ) ≤ lt ^ Nat.succ k := pow_nonneg h _
    have h2 : (0 : ℝ) < Real.exp (-lt) := Real.exp_pos _
    have h3 : (0 : ℝ) < (Nat.factorial (Nat.succ k) : ℝ) := by
      exact_mod_cast Nat.factorial_pos _
    exact div_nonneg (mul_nonneg h1 h2.le) h3.le
  linarith

theorem makeMixture_mass (meta : List (FinPmf ℤ × ℝ)) (u : ℤ)
    (hnd : ∀ pw ∈ meta, pw.1.keys.Nodup)
    (h0 : ∀ pw ∈ meta, ∀ v, v ∉ pw.1.keys → pw.1.mass v = 0) :
    (makeMixture meta).mass u = (meta.map fun pw => pw.2 * pw.1.mass u).sum := by
  induction meta with
  | nil =>
    show FinPmf.empty.mass u = _
    simp [FinPmf.empty]
  | cons pw rest ih =>
    have hblock :
        ((pw.1.items.map fun km => (km.1, pw.2 * km.2)).map
          fun p => if p.1 = u then p.2 else 0).sum = pw.2 * pw.1.mass u := by
      rw [List.map_map, FinPmf.items, List.map_map]
      have hcomp : (((fun p : ℤ × ℝ => if p.1 = u then p.2 else 0) ∘
          (fun km : ℤ × ℝ => (km.1, pw.2 * km.2))) ∘ (fun k => (k, pw.1.mass k)))
          = fun k => if k = u then pw.2 * pw.1.mass k else 0 := by
        funext k
        simp [Function.comp]
      rw [hcomp, sum_map_ite_eq _ _ (hnd pw (List.mem_cons_self pw rest))]
      by_cases hu : u ∈ pw.1.keys
      · rw [if_pos hu]
      · rw [if_neg hu, h0 pw (List.mem_cons_self pw rest) u hu, mul_zero]
    have h1 : (makeMixture (pw :: rest)).mass u
        = (FinPmf.incrAll FinPmf.empty (pw.1.items.map fun km => (km.1, pw.2 * km.2))).mass u
          + ((rest.map fun pw' => pw'.1.items.map fun km => (km.1, pw'.2 * km.2)).flatten.map
              fun p => if p.1 = u then p.2 else 0).sum := by
      rw [makeMixture]
      simp only [List.map_cons, List.flatten_cons]
      rw [FinPmf.incrAll_append, FinPmf.incrAll_mass]
    have h2 : (makeMixture rest).mass u
        = ((rest.map fun pw' => pw'.1.items.map fun km => (km.1, pw'.2 * km.2)).flatten.map
            fun p => if p.1 = u then p.2 else 0).sum := by
      rw [makeMixture, FinPmf.incrAll_mass]
      show (0 : ℝ) + _ = _
      rw [zero_add]
    have h3 : (FinPmf.incrAll FinPmf.empty
          (pw.1.items.map fun km => (km.1, pw.2 * km.2))).mass u
        = pw.2 * pw.1.mass u := by
      rw [FinPmf.incrAll_mass]
      show (0 : ℝ) + _ = _
      rw [zero_add, hblock]
    rw [h1, h3, ← h2,
      ih (fun pw' hpw' => hnd pw' (List.mem_cons_of_mem pw hpw'))
        (fun pw' hpw' => h0 pw' (List.mem_cons_of_mem pw hpw'))]
    rw [List.map_cons, List.sum_cons]

theorem makeMixture_keys (meta : List (FinPmf ℤ × ℝ)) (hne : meta ≠ [])
    (hk : ∀ pw ∈ meta, pw.1.keys = countKeys) :
    (makeMixture meta).keys = countKeys := by
  match meta, hne with
  | pw :: rest, _ =>
    rw [makeMixture]
    simp only [List.map_cons, List.flatten_cons]
    rw [FinPmf.incrAll_append]
    have hblock : (pw.1.items.map fun km => (km.1, pw.2 * km.2)).map Prod.fst = pw.1.keys := by
      rw [List.map_map]
      have : (Prod.fst ∘ fun km : ℤ × ℝ => (km.1, pw.2 * km.2)) = Prod.fst := by
        funext km; rfl
      rw [this, FinPmf.items_map_fst]
    have hfirst :
        (FinPmf.incrAll FinPmf.empty (pw.1.items.map fun km => (km.1, pw.2 * km.2))).keys
          = countKeys := by
      rw [FinPmf.incrAll_keys_fresh]
      · rw [hblock, hk pw (List.mem_cons_self pw rest)]
        rfl
      · rw [hblock, hk pw (List.mem_cons_self pw rest)]
        exact countKeys_nodup
      · intro p _
        simp [FinPmf.empty]
    rw [FinPmf.incrAll_keys_of_subset, hfirst]
    intro p hp
    rw [hfirst]
    simp only [List.mem_flatten, List.mem_map] at hp
    obtain ⟨bl, ⟨pw', hpw', rfl⟩, hpbl⟩ := hp
    simp only [List.mem_map] at hpbl
    obtain ⟨km, hkm, rfl⟩ := hpbl
    have := (FinPmf.mem_items hkm).1
    rw [hk pw' (List.mem_cons_of_mem pw hpw')] at this
    exact this

theorem buildMeta_some (rem : ℝ) (l : List (ℝ × ℝ)) (meta : List (FinPmf ℤ × ℝ))
    (h : buildMeta rem l = some meta) :
    meta = l.map (fun hp =>
        (⟨countKeys, fun k => poissonNormMass (hp.1 * rem / 60) k⟩, hp.2))
      ∧ ∀ hp ∈ l, poissonTotal (hp.1 * rem / 60) ≠ 0 := by
  induction l generalizing meta with
  | nil =>
    rw [buildMeta] at h
    injection h with h
    subst h
    exact ⟨rfl, by simp⟩
  | cons hp rest ih =>
    rw [buildMeta] at h
    cases hmk : makePoissonPmf (hp.1 * rem / 60) with
    | none => rw [hmk] at h; exact Option.noConfusion h
    | some pmf =>
      cases hbm : buildMeta rem rest with
      | none => rw [hmk, hbm] at h; exact Option.noConfusion h
      | some lrest =>
        rw [hmk, hbm] at h
        injection h with h
        subst h
        have hT : poissonTotal (hp.1 * rem / 60) ≠ 0 := by
          intro h0
          rw [makePoissonPmf, FinPmf.normalize, poissonRaw_total, if_pos h0] at hmk
          exact Option.noConfusion hmk
        rw [makePoissonPmf_eq_some _ hT] at hmk
        injection hmk with hmk
        obtain ⟨ih1, ih2⟩ := ih lrest hbm
        subst ih1
        refine ⟨by rw [← hmk]; rfl, ?_⟩
        intro q hq
        rcases List.mem_cons.mp hq with rfl | hq'
        · exact hT
        · exact ih2 q hq'

/-! ### Shared concrete evaluations -/

theorem multSuite_suite60_total : (multSuite 0 suite60).total = 1 := by
  rw [multSuite_total]
  show suite60.mass 60 * scoreLikelihood 0 60 + 0 = 1
  rw [scoreLikelihood, evalExponentialPdf]
  norm_num [suite60, Real.exp_zero]

/-! ### Claim theorems -/

/-- C1: for every suite state and observed gap x (minutes), a successful
update multiplies the mass of each hypothesis h (points per game) by the
exponential inter-arrival density (h/60) * exp(-(h/60) * x) and
renormalizes: the posterior mass of every h is a fixed nonzero multiple
of prior(h) * (h/60) * exp(-(h/60) * x), and the hypothesis set is
unchanged. -/
theorem c1_update_is_bayes_exponential (x : ℝ) (d d' : FinPmf ℝ)
    (h : scoreUpdate x d = some d') :
    d'.keys = d.keys ∧ ∃ c : ℝ, c ≠ 0 ∧ ∀ hyp : ℝ,
      d'.mass hyp = c * (d.mass hyp * (hyp / 60 * Real.exp (-(hyp / 60) * x))) := by
  have hT : (multSuite x d).total ≠ 0 := by
    intro h0
    rw [scoreUpdate_eq_none x d h0] at h
    exact Option.noConfusion h
  rw [scoreUpdate_eq_some x d hT] at h
  injection h with h
  subst h
  refine ⟨rfl, ((multSuite x d).total)⁻¹, inv_ne_zero hT, fun hyp => ?_⟩
  show d.mass hyp * scoreLikelihood x hyp / (multSuite x d).total = _
  rw [scoreLikelihood, evalExponentialPdf]
  ring

/-- Witness for C1 at the one-hypothesis suite {60 : 1} and gap 0. -/
theorem c1_witness : ∃ d', scoreUpdate 0 suite60 = some d' ∧
    (d'.keys = suite60.keys ∧ ∃ c : ℝ, c ≠ 0 ∧ ∀ hyp : ℝ,
      d'.mass hyp = c * (suite60.mass hyp * (hyp / 60 * Real.exp (-(hyp / 60) * 0)))) := by
  have hT : (multSuite 0 suite60).total ≠ 0 := by
    rw [multSuite_suite60_total]
    norm_num
  exact ⟨_, scoreUpdate_eq_some 0 suite60 hT,
    c1_update_is_bayes_exponential 0 suite60 _ (scoreUpdate_eq_some 0 suite60 hT)⟩

/-- C5: whenever an update succeeds (the post-multiplication total is
nonzero), the suite's distribution is normalized: its masses sum to
exactly 1. -/
theorem c5_update_leaves_normalized (x : ℝ) (d d' : FinPmf ℝ)
    (h : scoreUpdate x d = some d') : d'.total = 1 := by
  have hT : (multSuite x d).total ≠ 0 := by
    intro h0
    rw [scoreUpdate_eq_none x d h0] at h
    exact Option.noConfusion h
  rw [scoreUpdate_eq_some x d hT] at h
  injection h with h
  subst h
  show (d.keys.map fun hh => d.mass hh * scoreLikelihood x hh / (multSuite x d).total).sum = 1
  rw [sum_map_div d.keys (fun hh => d.mass hh * scoreLikelihood x hh) ((multSuite x d).total),
    ← multSuite_total]
  exact div_self hT

/-- Witness for C5 at the one-hypothesis suite {60 : 1} and gap 0. -/
theorem c5_witness : ∃ d', scoreUpdate 0 suite60 = some d' ∧ d'.total = 1 := by
  have hT : (multSuite 0 suite60).total ≠ 0 := by
    rw [multSuite_suite60_total]
    norm_num
  exact ⟨_, scoreUpdate_eq_some 0 suite60 hT,
    c5_update_leaves_normalized 0 suite60 _ (scoreUpdate_eq_some 0 suite60 hT)⟩

/-- C6: normalizing a distribution of total mass zero signals an error to
the caller (`none`, modelling the raised `ValueError`); in particular an
update whose likelihoods annihilate every hypothesis returns the error
rather than a uniform or unnormalized distribution. -/
theorem c6_zero_total_signals_error {α : Type} (d : FinPmf α) (x : ℝ) (s : FinPmf ℝ)
    (hd : d.total = 0) (hs : (multSuite x s).total = 0) :
    d.normalize = none ∧ scoreUpdate x s = none :=
  ⟨by rw [FinPmf.normalize, if_pos hd], scoreUpdate_eq_none x s hs⟩

/-- Witness for C6 at the empty distribution and an empty suite. -/
theorem c6_witness :
    FinPmf.empty.normalize = none ∧ scoreUpdate 5 ⟨[], fun _ => 0⟩ = none :=
  c6_zero_total_signals_error FinPmf.empty 5 ⟨[], fun _ => 0⟩ rfl rfl

/-- C7 counterexample: nothing rejects a negative rate. At the suite whose
single hypothesis is the negative rate -60 and gap 12, the likelihood
computed for the hypothesis is negative (a silently produced negative
mass), and the update nevertheless completes successfully instead of
signaling an error. -/
theorem c7_counterexample :
    scoreLikelihood 12 (-60) < 0 ∧ (scoreUpdate 12 negSuite).isSome = true := by
  have hlik : scoreLikelihood 12 (-60) = -Real.exp 12 := by
    rw [scoreLikelihood, evalExponentialPdf]
    norm_num
  have htot : (multSuite 12 negSuite).total = -Real.exp 12 := by
    rw [multSuite_total]
    show negSuite.mass (-60) * scoreLikelihood 12 (-60) + 0 = -Real.exp 12
    rw [hlik]
    norm_num [negSuite]
  constructor
  · rw [hlik]
    exact neg_lt_zero.mpr (Real.exp_pos 12)
  · have hT : (multSuite 12 negSuite).total ≠ 0 := by
      rw [htot]
      exact neg_ne_zero.mpr (Real.exp_ne_zero 12)
    rw [scoreUpdate_eq_some 12 negSuite hT]
    rfl

/-- C7 amended: the likelihood computation performs no input validation;
for a negative hypothesis rate it returns the negative value
(h/60) * exp(-(h/60) * x), so negative masses propagate silently instead
of being rejected. -/
theorem c7_amended_no_validation (x hyp : ℝ) (hneg : hyp < 0) :
    scoreLikelihood x hyp < 0 := by
  rw [scoreLikelihood, evalExponentialPdf]
  have h1 : hyp / 60 < 0 := by linarith
  have h2 : 0 < Real.exp (-(hyp / 60) * x) := Real.exp_pos _
  exact mul_neg_of_neg_of_pos h1 h2

/-- Witness for the amended C7 at gap 12 and hypothesis -60. -/
theorem c7_witness : scoreLikelihood 12 (-60) < 0 :=
  c7_amended_no_validation 12 (-60) (by norm_num)

theorem lik5_eq : scoreLikelihood 12 5 = 1 / 12 * Real.exp (-1) := by
  rw [scoreLikelihood, evalExponentialPdf]
  norm_num

theorem lik10_eq : scoreLikelihood 12 10 = 1 / 6 * Real.exp (-2) := by
  rw [scoreLikelihood, evalExponentialPdf]
  norm_num

theorem suite2_total_eq : (multSuite 12 suite2).total
    = 1 / 2 * (1 / 12 * Real.exp (-1)) + 1 / 2 * (1 / 6 * Real.exp (-2)) := by
  rw [multSuite_total]
  show suite2.mass 5 * scoreLikelihood 12 5 + (suite2.mass 10 * scoreLikelihood 12 10 + 0)
      = _
  rw [lik5_eq, lik10_eq]
  norm_num [suite2]

theorem suite2_total_pos : 0 < (multSuite 12 suite2).total := by
  rw [suite2_total_eq]
  positivity

theorem lik10_lt_lik5 : scoreLikelihood 12 10 < scoreLikelihood 12 5 := by
  rw [lik5_eq, lik10_eq]
  have h1 : Real.exp (-2 : ℝ) = Real.exp (-1) * Real.exp (-1) := by
    rw [← Real.exp_add]
    norm_num
  have h2 : Real.exp (-1 : ℝ) < 1 / 2 := by
    rw [Real.exp_neg]
    have h3 : (2 : ℝ) < Real.exp 1 := by linarith [Real.exp_one_gt_d9]
    have h4 : (Real.exp 1)⁻¹ < (2 : ℝ)⁻¹ := by
      apply inv_strictAnti₀
      · norm_num
      · exact h3
    calc (Real.exp 1)⁻¹ < (2 : ℝ)⁻¹ := h4
    _ = 1 / 2 := by norm_num
  have h5 : 0 < Real.exp (-1 : ℝ) := Real.exp_pos _
  rw [h1]
  nlinarith

/-- C8 counterexample: at the uniform two-point prior over {5, 10} and a
single observed gap of 12 minutes, the posterior mass of hypothesis 10 is
NOT strictly greater than that of hypothesis 5 (the exponential density at
a 12-minute gap is larger under the 5-points-per-game rate). -/
theorem c8_counterexample :
    ∃ d', scoreUpdate 12 suite2 = some d' ∧ ¬ (d'.mass 5 < d'.mass 10) := by
  refine ⟨_, scoreUpdate_eq_some 12 suite2 suite2_total_pos.ne', ?_⟩
  rw [not_lt]
  show suite2.mass 10 * scoreLikelihood 12 10 / (multSuite 12 suite2).total
      ≤ suite2.mass 5 * scoreLikelihood 12 5 / (multSuite 12 suite2).total
  have hm10 : suite2.mass 10 = 1 / 2 := by norm_num [suite2]
  have hm5 : suite2.mass 5 = 1 / 2 := by norm_num [suite2]
  rw [hm10, hm5]
  exact (div_le_div_iff_of_pos_right suite2_total_pos).mpr (by linarith [lik10_lt_lik5])

/-- C8 amended: after that update the posterior strictly favors hypothesis
5 over hypothesis 10. -/
theorem c8_amended_favors_5 :
    ∃ d', scoreUpdate 12 suite2 = some d' ∧ d'.mass 10 < d'.mass 5 := by
  refine ⟨_, scoreUpdate_eq_some 12 suite2 suite2_total_pos.ne', ?_⟩
  show suite2.mass 10 * scoreLikelihood 12 10 / (multSuite 12 suite2).total
      < suite2.mass 5 * scoreLikelihood 12 5 / (multSuite 12 suite2).total
  have hm10 : suite2.mass 10 = 1 / 2 := by norm_num [suite2]
  have hm5 : suite2.mass 5 = 1 / 2 := by norm_num [suite2]
  rw [hm10, hm5]
  exact (div_lt_div_iff_of_pos_right suite2_total_pos).mpr (by linarith [lik10_lt_lik5])

/-- C4: evaluating `Football.Update` on a concrete team model and
observation pair raises `AttributeError` on the undefined attribute
`score` (its first statement references `self.score`, never bound by
`__init__`), instead of completing the routed updates without error. -/
theorem c4_update_raises_attribute_error :
    footballUpdate demoFootball (12, 15) = Except.error (PyError.attrError "score") := by
  have h : ¬ ("score" ∈ footballInitAttrs) := by decide
  rw [footballUpdate, if_neg h]

/-- C9: `main`'s first win-probability print references the name
`GoalTotal_giants`, which is bound neither among `main`'s locals (the
bound names are `GoalTotalGiants` / `GoalTotalEagles`) nor at module
level, so `main` raises `NameError` (a nonzero exit) before printing any
win probability. -/
theorem c9_main_raises_name_error :
    pyMainOutcome = Except.error (PyError.nameError "GoalTotal_giants") := by
  rfl

theorem addConstant_mass (d : FinPmf ℤ) (c k : ℤ) :
    (d.addConstant c).mass k = d.mass (k - c) := rfl

theorem addConstant_keys (d : FinPmf ℤ) (c : ℤ) :
    (d.addConstant c).keys = d.keys.map (· + c) := rfl

theorem scaleKeys_keys (d : FinPmf ℤ) (c : ℤ) :
    (d.scaleKeys c).keys = d.keys.map (· * c) := rfl

theorem sum_ind_flatten (L : List (List (ℤ × ℝ))) (u : ℤ) :
    (L.flatten.map fun p => if p.1 = u then p.2 else 0).sum
      = (L.map fun bl => (bl.map fun p => if p.1 = u then p.2 else 0).sum).sum := by
  induction L with
  | nil => simp
  | cons bl rest ih =>
    rw [List.flatten_cons, List.map_append, List.sum_append, ih, List.map_cons, List.sum_cons]

theorem buildMeta_singleton (rem lam p : ℝ) (hT : poissonTotal (lam * rem / 60) ≠ 0) :
    buildMeta rem [(lam, p)]
      = some [(⟨countKeys, fun k => poissonNormMass (lam * rem / 60) k⟩, p)] := by
  show (match makePoissonPmf (lam * rem / 60), buildMeta rem [] with
    | some pmf, some l => some ((pmf, p) :: l)
    | _, _ => none) = _
  rw [makePoissonPmf_eq_some _ hT]
  rfl

theorem pred_suite60 (score : ℤ) :
    scorePredRemaining 60 score suite60
      = some ((makeMixture [(⟨countKeys, fun k => poissonNormMass ((60 : ℝ) * 60 / 60) k⟩,
          suite60.mass 60)]).addConstant score) := by
  have hT : poissonTotal ((60 : ℝ) * 60 / 60) ≠ 0 := (poissonTotal_pos _ (by norm_num)).ne'
  have hitems : suite60.items = [((60 : ℝ), suite60.mass 60)] := rfl
  rw [scorePredRemaining, hitems, buildMeta_singleton 60 60 (suite60.mass 60) hT]
  rfl

/-- C2: a successful `ScoreType.PredRemaining(rem, score)` call returns
the hypothesis-weighted mixture of the truncated (0..20) normalized
Poisson pmfs with expected count h * rem / 60, with every key shifted by
the already observed score: the mass at key k is the sum over suite items
(h, p) of p times the normalized Poisson mass at k - score, and for a
nonempty suite the key list is 0..20 shifted by score. -/
theorem c2_pred_is_shifted_poisson_mixture (rem : ℝ) (score : ℤ) (d : FinPmf ℝ)
    (m : FinPmf ℤ) (hm : scorePredRemaining rem score d = some m) :
    (∀ k : ℤ, m.mass k
        = (d.items.map fun hp => hp.2 * poissonNormMass (hp.1 * rem / 60) (k - score)).sum)
      ∧ (d.keys ≠ [] → m.keys = countKeys.map (· + score)) := by
  rw [scorePredRemaining] at hm
  cases hbm : buildMeta rem d.items with
  | none =>
    rw [hbm] at hm
    exact Option.noConfusion hm
  | some meta =>
    rw [hbm, Option.map_some'] at hm
    injection hm with hm
    subst hm
    obtain ⟨hmeta, hT⟩ := buildMeta_some rem d.items meta hbm
    subst hmeta
    constructor
    · intro k
      rw [addConstant_mass, makeMixture_mass]
      · rw [List.map_map]
        apply congrArg List.sum
        apply List.map_congr_left
        intro hp _
        rfl
      · intro pw hpw
        rw [List.mem_map] at hpw
        obtain ⟨hp, _, rfl⟩ := hpw
        exact countKeys_nodup
      · intro pw hpw v hv
        rw [List.mem_map] at hpw
        obtain ⟨hp, _, rfl⟩ := hpw
        exact poissonNormMass_zero _ v hv
    · intro hne
      rw [addConstant_keys, makeMixture_keys]
      · intro hnil
        exact hne (List.map_eq_nil_iff.mp (List.map_eq_nil_iff.mp hnil))
      · intro pw hpw
        rw [List.mem_map] at hpw
        obtain ⟨hp, _, rfl⟩ := hpw
        rfl

/-- Witness for C2 at the one-hypothesis suite {60 : 1}, 60 remaining
minutes and 2 already-scored goals. -/
theorem c2_witness : ∃ m, scorePredRemaining 60 2 suite60 = some m ∧
    ((∀ k : ℤ, m.mass k
        = (suite60.items.map fun hp => hp.2 * poissonNormMass (hp.1 * 60 / 60) (k - 2)).sum)
      ∧ (suite60.keys ≠ [] → m.keys = countKeys.map (· + 2))) :=
  ⟨_, pred_suite60 2, c2_pred_is_shifted_poisson_mixture 60 2 suite60 _ (pred_suite60 2)⟩

/-- C3: the team-level prediction convolves the FG count pmf with keys
scaled by 3 and the TD count pmf with keys scaled by 7 (both from
`PredRemaining(rem, 0)`), then shifts by the points already scored: the
mass of the result at v is the double sum over the scaled items of the
products of masses whose scaled keys sum (with the shift) to v. -/
theorem c3_team_pred_is_scaled_convolution (f : Football) (rem : ℝ) (points : ℤ)
    (fgp tdp : FinPmf ℤ)
    (hfg : scorePredRemaining rem 0 f.FG = some fgp)
    (htd : scorePredRemaining rem 0 f.TD = some tdp) :
    ∃ g, footballPredRemaining f rem points = some g ∧ ∀ v : ℤ,
      g.mass v = ((fgp.scaleKeys 3).items.map fun x =>
        ((tdp.scaleKeys 7).items.map fun y =>
          if x.1 + y.1 + points = v then x.2 * y.2 else 0).sum).sum := by
  have hg : footballPredRemaining f rem points
      = some (((fgp.scaleKeys 3).addPmf (tdp.scaleKeys 7)).addConstant points) := by
    rw [footballPredRemaining, hfg, htd]
  refine ⟨_, hg, ?_⟩
  · intro v
    rw [addConstant_mass, FinPmf.addPmf, FinPmf.incrAll_mass]
    have hz : FinPmf.empty.mass (v - points) = 0 := rfl
    rw [hz, zero_add, sum_ind_flatten, List.map_map]
    apply congrArg List.sum
    apply List.map_congr_left
    intro x _
    show (((tdp.scaleKeys 7).items.map fun y => (x.1 + y.1, x.2 * y.2)).map
        fun q => if q.1 = v - points then q.2 else 0).sum = _
    rw [List.map_map]
    apply congrArg List.sum
    apply List.map_congr_left
    intro y _
    show (if (x.1 + y.1 : ℤ) = v - points then x.2 * y.2 else 0)
        = if x.1 + y.1 + points = v then x.2 * y.2 else 0
    by_cases h : x.1 + y.1 + points = v
    · rw [if_pos (by omega), if_pos h]
    · rw [if_neg (by omega), if_neg h]

/-- Witness for C3 at the concrete team model with both suites {60 : 1},
60 remaining minutes and 5 points already scored. -/
theorem c3_witness : ∃ fgp tdp g,
    scorePredRemaining 60 0 demoFootball.FG = some fgp ∧
    scorePredRemaining 60 0 demoFootball.TD = some tdp ∧
    footballPredRemaining demoFootball 60 5 = some g ∧
    ∀ v : ℤ, g.mass v = ((fgp.scaleKeys 3).items.map fun x =>
        ((tdp.scaleKeys 7).items.map fun y =>
          if x.1 + y.1 + 5 = v then x.2 * y.2 else 0).sum).sum := by
  obtain ⟨g, hg, hmass⟩ :=
    c3_team_pred_is_scaled_convolution demoFootball 60 5 _ _ (pred_suite60 0) (pred_suite60 0)
  exact ⟨_, _, g, pred_suite60 0, pred_suite60 0, hg, hmass⟩

theorem pred_keys_shape (rem : ℝ) (score : ℤ) (d : FinPmf ℝ) (m : FinPmf ℤ)
    (hm : scorePredRemaining rem score d = some m) :
    ∀ k ∈ m.keys, ∃ n : ℤ, 0 ≤ n ∧ n ≤ 20 ∧ k = n + score := by
  rw [scorePredRemaining] at hm
  cases hbm : buildMeta rem d.items with
  | none =>
    rw [hbm] at hm
    exact Option.noConfusion hm
  | some meta =>
    rw [hbm, Option.map_some'] at hm
    injection hm with hm
    subst hm
    obtain ⟨hmeta, -⟩ := buildMeta_some rem d.items meta hbm
    subst hmeta
    intro k hk
    rw [addConstant_keys, List.mem_map] at hk
    obtain ⟨u, hu, rfl⟩ := hk
    rw [makeMixture, FinPmf.incrAll_keys_mem] at hu
    rcases hu with hu | hu
    · exact absurd hu (List.not_mem_nil u)
    · rw [List.mem_map] at hu
      obtain ⟨p, hp, rfl⟩ := hu
      rw [List.mem_flatten] at hp
      obtain ⟨bl, hbl, hpbl⟩ := hp
      rw [List.mem_map] at hbl
      obtain ⟨pw, hpw, rfl⟩ := hbl
      rw [List.mem_map] at hpbl
      obtain ⟨km, hkm, rfl⟩ := hpbl
      have h1 := (FinPmf.mem_items hkm).1
      rw [List.mem_map] at hpw
      obtain ⟨hp', _, rfl⟩ := hpw
      have h2 : km.1 ∈ countKeys := h1
      rw [mem_countKeys] at h2
      exact ⟨km.1, h2.1, h2.2, rfl⟩

/-- C10: under a successful team-level prediction, every key of the
returned distribution has the form 3a + 7b + points with counts a, b in
0..20; in particular every key lies in [points, points + 200]. -/
theorem c10_keys_are_point_combinations (f : Football) (rem : ℝ) (points : ℤ)
    (g : FinPmf ℤ) (hrem : 0 ≤ rem)
    (hg : footballPredRemaining f rem points = some g) :
    ∀ k ∈ g.keys, ∃ a b : ℤ, 0 ≤ a ∧ a ≤ 20 ∧ 0 ≤ b ∧ b ≤ 20 ∧
      k = 3 * a + 7 * b + points ∧ points ≤ k ∧ k ≤ points + 200 := by
  rw [footballPredRemaining] at hg
  cases hfg : scorePredRemaining rem 0 f.FG with
  | none =>
    rw [hfg] at hg
    exact Option.noConfusion hg
  | some fgp =>
    cases htd : scorePredRemaining rem 0 f.TD with
    | none =>
      rw [hfg, htd] at hg
      exact Option.noConfusion hg
    | some tdp =>
      rw [hfg, htd] at hg
      injection hg with hg
      subst hg
      intro k hk
      rw [addConstant_keys, List.mem_map] at hk
      obtain ⟨u, hu, rfl⟩ := hk
      rw [FinPmf.addPmf, FinPmf.incrAll_keys_mem] at hu
      rcases hu with hu | hu
      · exact absurd hu (List.not_mem_nil u)
      · rw [List.mem_map] at hu
        obtain ⟨p, hp, rfl⟩ := hu
        rw [List.mem_flatten] at hp
        obtain ⟨bl, hbl, hpbl⟩ := hp
        rw [List.mem_map] at hbl
        obtain ⟨x, hx, rfl⟩ := hbl
        rw [List.mem_map] at hpbl
        obtain ⟨y, hy, rfl⟩ := hpbl
        have hx1 := (FinPmf.mem_items hx).1
        have hy1 := (FinPmf.mem_items hy).1
        rw [scaleKeys_keys, List.mem_map] at hx1
        obtain ⟨a0, ha0, hxa⟩ := hx1
        rw [scaleKeys_keys, List.mem_map] at hy1
        obtain ⟨b0, hb0, hyb⟩ := hy1
        obtain ⟨na, hna0, hna20, hna⟩ := pred_keys_shape rem 0 f.FG fgp hfg a0 ha0
        obtain ⟨nb, hnb0, hnb20, hnb⟩ := pred_keys_shape rem 0 f.TD tdp htd b0 hb0
        have hkey : ((x.1 + y.1, x.2 * y.2) : ℤ × ℝ).1 = x.1 + y.1 := rfl
        refine ⟨na, nb, hna0, hna20, hnb0, hnb20, ?_, ?_, ?_⟩ <;> omega

/-- Witness for C10 at the concrete team model with both suites {60 : 1},
60 remaining minutes and 2 points already scored. -/
theorem c10_witness : ∃ g, footballPredRemaining demoFootball 60 2 = some g ∧
    ∀ k ∈ g.keys, ∃ a b : ℤ, 0 ≤ a ∧ a ≤ 20 ∧ 0 ≤ b ∧ b ≤ 20 ∧
      k = 3 * a + 7 * b + 2 ∧ 2 ≤ k ∧ k ≤ 2 + 200 := by
  have hg : footballPredRemaining demoFootball 60 2
      = some (((((makeMixture [(⟨countKeys, fun k => poissonNormMass ((60 : ℝ) * 60 / 60) k⟩,
            suite60.mass 60)]).addConstant 0).scaleKeys 3).addPmf
          (((makeMixture [(⟨countKeys, fun k => poissonNormMass ((60 : ℝ) * 60 / 60) k⟩,
            suite60.mass 60)]).addConstant 0).scaleKeys 7)).addConstant 2) := by
    rw [footballPredRemaining, show demoFootball.FG = suite60 from rfl,
      show demoFootball.TD = suite60 from rfl, pred_suite60 0]
  exact ⟨_, hg, c10_keys_are_point_combinations demoFootball 60 2 _ (by norm_num) hg⟩

end
